import Mathlib

/-!
Verification of the sorted linked-list integer set, the rendezvous barrier,
the random stream and the trace-emitting worker loop of `trace-gen/tracegen.c`.

The linked list chain is embedded as a `List Int`: the C chain
`head -> n1 -> ... -> nk -> NULL` becomes `[head.val, n1.val, ..., nk.val]`.
`val_t` values are embedded as `Int`; `VAL_MIN`/`VAL_MAX` are `INT_MIN`/`INT_MAX`.
A dereference of a NULL `node_t *` (undefined behaviour in the C) is modelled by
returning `none`, so every set operation is `Option`-valued.
-/

namespace Tracegen

/-- `VAL_MIN` is `INT_MIN` (tracegen.c line 95). -/
def VAL_MIN : Int := -2147483648

/-- `VAL_MAX` is `INT_MAX` (tracegen.c line 96). -/
def VAL_MAX : Int := 2147483647

/-- `set_new` (lines 123-137): chain of the two sentinels, min first. -/
def set_new : List Int := [VAL_MIN, VAL_MAX]

/-- The common traversal loop of `set_contains`/`set_add`/`set_remove`
(lines 178-183, 200-205, 226-231): starting from `next = head->next`, advance
while `next->val < val`.  Input is the chain after the head node; the result is
`some (passed, next :: after)` where `passed` are the nodes stepped over and
`next` is the first node with `next->val >= val`.  Running off the end would
dereference NULL (`next->val` with `next == NULL`), modelled as `none`. -/
def seek (v : Int) : List Int → Option (List Int × List Int)
  | [] => none
  | x :: xs =>
    if x < v then
      match seek v xs with
      | none => none
      | some (pre, rest) => some (x :: pre, rest)
    else
      some ([], x :: xs)

/-- `set_contains` (lines 167-187): traverse, then `result = (next->val == val)`. -/
def set_contains (s : List Int) (v : Int) : Option Bool :=
  match s with
  | [] => none
  | _ :: rest =>
    match seek v rest with
    | none => none
    | some (_, []) => none
    | some (_, x :: _) => some (x == v)

/-- `set_add` (lines 189-212): traverse; `result = (next->val != val)`; if so,
splice a new node with value `val` between `prev` and `next`. -/
def set_add (s : List Int) (v : Int) : Option (Bool × List Int) :=
  match s with
  | [] => none
  | h :: rest =>
    match seek v rest with
    | none => none
    | some (_, []) => none
    | some (pre, x :: xs) =>
      if x == v then some (false, h :: (pre ++ x :: xs))
      else some (true, h :: (pre ++ v :: x :: xs))

/-- `set_remove` (lines 214-238): traverse; `result = (next->val == val)`; if so,
unlink the found node (`prev->next = next->next`). -/
def set_remove (s : List Int) (v : Int) : Option (Bool × List Int) :=
  match s with
  | [] => none
  | h :: rest =>
    match seek v rest with
    | none => none
    | some (_, []) => none
    | some (pre, x :: xs) =>
      if x == v then some (true, h :: (pre ++ xs))
      else some (false, h :: (pre ++ x :: xs))

/-- `set_size` (lines 152-165): `node = head->next`, count while
`node->next != NULL`.  If `head->next` is NULL the first loop test dereferences
NULL, modelled as `none`; otherwise the count is the chain length minus the two
nodes not counted (the head and the final node). -/
def set_size (s : List Int) : Option Nat :=
  match s with
  | _ :: x :: rest => some ((x :: rest).length - 1)
  | _ => none

/-- The loop guard `next->val < val` as a Bool predicate on node values. -/
def ltv (v : Int) : Int → Bool := fun x => decide (x < v)

/-- Structural invariant of the chain, as stated by the spec: minimum sentinel
first, maximum sentinel last, values strictly increasing along the chain
(strict order also gives that no value is duplicated). -/
def SetInv (s : List Int) : Prop :=
  s.head? = some VAL_MIN ∧ s.getLast? = some VAL_MAX ∧ s.Pairwise (· < ·)

instance (s : List Int) : Decidable (SetInv s) := by
  unfold SetInv
  infer_instance

/-- A single client call mutating the set, for stating properties of
single-threaded call sequences. -/
inductive SetOp
  | add (v : Int)
  | rem (v : Int)
deriving DecidableEq

/-- Value precondition for the size-accounting property: `int`-range values and
no removal of the maximum sentinel value. -/
def opvalOk : SetOp → Prop
  | SetOp.add v => v ≤ VAL_MAX
  | SetOp.rem v => v < VAL_MAX

instance : DecidablePred opvalOk := fun op =>
  match op with
  | SetOp.add v => inferInstanceAs (Decidable (v ≤ VAL_MAX))
  | SetOp.rem v => inferInstanceAs (Decidable (v < VAL_MAX))

/-- Value precondition for invariant preservation: additionally no insertion of
the minimum sentinel value. -/
def okOp : SetOp → Prop
  | SetOp.add v => VAL_MIN < v ∧ v ≤ VAL_MAX
  | SetOp.rem v => v < VAL_MAX

instance : DecidablePred okOp := fun op =>
  match op with
  | SetOp.add v => inferInstanceAs (Decidable (VAL_MIN < v ∧ v ≤ VAL_MAX))
  | SetOp.rem v => inferInstanceAs (Decidable (v < VAL_MAX))

/-- Run a sequence of single-threaded `set_add`/`set_remove` calls against a
chain, counting the calls that returned true (the successes, which is what the
driver tracks in `d->diff`, lines 298-299 and 307-308). -/
def runOps : List SetOp → List Int → Nat → Nat → Option (List Int × Nat × Nat)
  | [], s, a, r => some (s, a, r)
  | SetOp.add v :: t, s, a, r =>
    match set_add s v with
    | none => none
    | some (b, s2) => runOps t s2 (if b then a + 1 else a) r
  | SetOp.rem v :: t, s, a, r =>
    match set_remove s v with
    | none => none
    | some (b, s2) => runOps t s2 a (if b then r + 1 else r)

/-- State of one barrier (lines 246-275) together with its client threads,
abstracted to how many threads sit at each program point of `barrier_cross`:
`nStart` threads have not yet entered the mutex, `nWaiting` are blocked in
`pthread_cond_wait`, `nWoken` have been broadcast awake but have not yet
reacquired the mutex and returned, `nDone` have returned.  `crossing` is the
field `b->crossing`.  Each transition below is one full mutex-protected
critical section of the C code (sound, since the mutex serialises them), and
`pthread_cond_wait` is modelled without spurious wakeups. -/
structure BarrierSt where
  nStart : Nat
  nWaiting : Nat
  nWoken : Nat
  nDone : Nat
  crossing : Nat
deriving DecidableEq

/-- One critical section of `barrier_cross` (lines 261-275), for a barrier
initialised with `count = N`: an arriving thread increments `crossing`; if the
new value is below `N` it waits (releasing the mutex inside `cond_wait`);
otherwise it broadcasts (every waiting thread becomes woken), resets
`crossing` to zero, and returns.  A woken thread reacquires the mutex,
unlocks it and returns. -/
inductive BarrierStep (N : Nat) : BarrierSt → BarrierSt → Prop
  | arrive_wait (ns nw nk nd c : Nat) (h : c + 1 < N) :
      BarrierStep N ⟨ns + 1, nw, nk, nd, c⟩ ⟨ns, nw + 1, nk, nd, c + 1⟩
  | arrive_last (ns nw nk nd c : Nat) (h : ¬ c + 1 < N) :
      BarrierStep N ⟨ns + 1, nw, nk, nd, c⟩ ⟨ns, 0, nk + nw, nd + 1, 0⟩
  | woken_exit (ns nw nk nd c : Nat) :
      BarrierStep N ⟨ns, nw, nk + 1, nd, c⟩ ⟨ns, nw, nk, nd + 1, c⟩

/-- `barrier_init` (lines 253-259) with `n = N` participants about to call
`barrier_cross`: `crossing = 0`, every thread still outside. -/
def barrier_init (N : Nat) : BarrierSt := ⟨N, 0, 0, 0, 0⟩

/-- States reachable by interleaving `barrier_cross` critical sections from a
freshly initialised barrier with `N` participants. -/
def BarrierReach (N : Nat) (s : BarrierSt) : Prop :=
  Relation.ReflTransGen (BarrierStep N) (barrier_init N) s

/-- Modelled from the spec: `erand48` (libc, not in src/) is the POSIX 48-bit
linear-congruential generator with multiplier 0x5DEECE66D, increment 0xB and
modulus 2^48; it steps the state and returns state/2^48 in [0, 1). -/
def erand48_next (x : Nat) : Nat := (0x5DEECE66D * x + 0xB) % 2 ^ 48

/-- `rand_range` (lines 61-67): `(int)(erand48(seed) * n)`, returned together
with the updated 48-bit state.  The truncated product `(int)((x/2^48) * n)` is
`x * n / 2^48` in exact arithmetic (the IEEE rounding of the `double` multiply
is not modelled). -/
def rand_range (n : Nat) (x : Nat) : Nat × Nat :=
  (erand48_next x * n / 2 ^ 48, erand48_next x)

/-- Per-worker state of `test` (lines 281-346): the shared chain, the locals
`last` and `val` of `test` (both survive across loop iterations; `val` is
declared uninitialised, so its initial content is a parameter of the model),
the `thread_data_t` counters, and the trace lines written to stderr so far,
each as (operation tag, printed value). -/
structure WorkerSt where
  chain : List Int
  last : Int
  diff : Int
  nb_add : Nat
  nb_remove : Nat
  nb_contains : Nat
  nb_found : Nat
  val : Int
  trace : List (Nat × Int)
deriving DecidableEq

/-- Worker state at the top of the loop in `test`: `last = -1`, counters zeroed
by `main` (lines 524-528), nothing printed, `val` holding its indeterminate
initial content `v0`. -/
def worker_init (chain : List Int) (v0 : Int) : WorkerSt :=
  ⟨chain, -1, 0, 0, 0, 0, 0, v0, []⟩

/-- One iteration of the while loop of `test` (lines 289-343).  The random
draws are consumed from an oracle list: each element is one `rand_range`
result (first the operation roll in [0,100), then, in the branches that draw,
the value roll in [0,range)).  An exhausted oracle or a NULL dereference
inside a set operation yields `none`. -/
def test_step (update : Nat) (alternate : Bool) (st : WorkerSt) (draws : List Nat) :
    Option (WorkerSt × List Nat) :=
  match draws with
  | [] => none
  | op :: ds =>
    if op < update then
      if alternate then
        if st.last < 0 then
          match ds with
          | [] => none
          | r :: ds2 =>
            let v : Int := (r : Int) + 1
            match set_add st.chain v with
            | none => none
            | some (ok, chain2) =>
              some ({ st with
                        chain := chain2,
                        diff := if ok then st.diff + 1 else st.diff,
                        last := if ok then v else st.last,
                        nb_add := st.nb_add + 1,
                        val := v,
                        trace := st.trace ++ [(0, v)] }, ds2)
        else
          match set_remove st.chain st.last with
          | none => none
          | some (ok, chain2) =>
            some ({ st with
                      chain := chain2,
                      diff := if ok then st.diff - 1 else st.diff,
                      nb_remove := st.nb_remove + 1,
                      last := -1,
                      trace := st.trace ++ [(1, st.val)] }, ds)
      else
        match ds with
        | [] => none
        | r :: ds2 =>
          let v : Int := (r : Int) + 1
          if op % 2 == 0 then
            match set_add st.chain v with
            | none => none
            | some (ok, chain2) =>
              some ({ st with
                        chain := chain2,
                        diff := if ok then st.diff + 1 else st.diff,
                        nb_add := st.nb_add + 1,
                        val := v,
                        trace := st.trace ++ [(0, v)] }, ds2)
          else
            match set_remove st.chain v with
            | none => none
            | some (ok, chain2) =>
              some ({ st with
                        chain := chain2,
                        diff := if ok then st.diff - 1 else st.diff,
                        nb_remove := st.nb_remove + 1,
                        val := v,
                        trace := st.trace ++ [(1, v)] }, ds2)
    else
      match ds with
      | [] => none
      | r :: ds2 =>
        let v : Int := (r : Int) + 1
        match set_contains st.chain v with
        | none => none
        | some found =>
          some ({ st with
                    nb_found := if found then st.nb_found + 1 else st.nb_found,
                    nb_contains := st.nb_contains + 1,
                    val := v,
                    trace := st.trace ++ [(2, v)] }, ds2)

/-- The while loop of `test` run for `ops` iterations (`while (d->ops--)`). -/
def test_loop (update : Nat) (alternate : Bool) :
    Nat → WorkerSt → List Nat → Option (WorkerSt × List Nat)
  | 0, st, ds => some (st, ds)
  | k + 1, st, ds =>
    match test_step update alternate st ds with
    | none => none
    | some (st2, ds2) => test_loop update alternate k st2 ds2

/-! ### Characterisation of the traversal -/

theorem seek_eq_some (v : Int) :
    ∀ l : List Int, (∃ x ∈ l, v ≤ x) →
      seek v l = some (l.takeWhile (ltv v), l.dropWhile (ltv v)) := by
  intro l
  induction l with
  | nil => rintro ⟨x, hx, -⟩; exact absurd hx (List.not_mem_nil x)
  | cons a as ih =>
    rintro ⟨x, hx, hvx⟩
    by_cases hav : a < v
    · have hxas : x ∈ as := by
        rcases List.mem_cons.mp hx with rfl | h
        · exact absurd hav (not_lt.mpr hvx)
        · exact h
      rw [seek, if_pos hav, ih ⟨x, hxas, hvx⟩]
      simp [ltv, hav, List.takeWhile_cons, List.dropWhile_cons]
    · rw [seek, if_neg hav]
      simp [ltv, hav, List.takeWhile_cons, List.dropWhile_cons]

theorem dropWhile_ne_nil_of_stopper (v x : Int) (l : List Int)
    (hx : x ∈ l) (hvx : v ≤ x) : l.dropWhile (ltv v) ≠ [] := by
  induction l with
  | nil => exact absurd hx (List.not_mem_nil x)
  | cons a as ih =>
    by_cases hav : a < v
    · have hxas : x ∈ as := by
        rcases List.mem_cons.mp hx with rfl | h
        · exact absurd hav (not_lt.mpr hvx)
        · exact h
      rw [List.dropWhile_cons]
      simpa [ltv, hav] using ih hxas
    · rw [List.dropWhile_cons]
      simp [ltv, hav]

theorem mem_of_dropWhile_cons (p : Int → Bool) (x : Int) (t : List Int) :
    ∀ l : List Int, l.dropWhile p = x :: t → x ∈ l := by
  intro l
  induction l with
  | nil => intro h; simp [List.dropWhile] at h
  | cons a as ih =>
    intro h
    rw [List.dropWhile_cons] at h
    by_cases hpa : p a = true
    · rw [if_pos hpa] at h
      exact List.mem_cons_of_mem a (ih h)
    · rw [if_neg hpa] at h
      rw [List.cons.injEq] at h
      exact h.1 ▸ List.mem_cons_self a as

/-- On a strictly sorted chain, if `v` occurs in it then the traversal stops
exactly at the node carrying `v`, and dropping that node yields `l.erase v`. -/
theorem dropWhile_cons_of_mem (v : Int) :
    ∀ l : List Int, l.Pairwise (· < ·) → v ∈ l →
      ∃ t, l.dropWhile (ltv v) = v :: t ∧ l.takeWhile (ltv v) ++ t = l.erase v := by
  intro l
  induction l with
  | nil => intro _ hv; exact absurd hv (List.not_mem_nil v)
  | cons a as ih =>
    intro hp hv
    rcases List.pairwise_cons.mp hp with ⟨ha, hpas⟩
    rcases List.mem_cons.mp hv with rfl | hvas
    · refine ⟨as, ?_, ?_⟩
      · rw [List.dropWhile_cons]
        simp [ltv]
      · rw [List.takeWhile_cons]
        simp [ltv, List.erase_cons]
    · have hav : a < v := ha v hvas
      obtain ⟨t, hdrop, htake⟩ := ih hpas hvas
      refine ⟨t, ?_, ?_⟩
      · rw [List.dropWhile_cons]
        simp only [ltv, hav, decide_true_eq_true, if_true]
        exact hdrop
      · rw [List.takeWhile_cons]
        have hane : (a == v) = false := by
          simp [ne_of_lt hav]
        simp only [ltv, hav, decide_true_eq_true, if_true, List.cons_append,
          List.erase_cons, hane]
        rw [htake]
        simp

theorem head_dropWhile_ne_of_not_mem (v x : Int) (t : List Int) (l : List Int)
    (hv : v ∉ l) (h : l.dropWhile (ltv v) = x :: t) : x ≠ v := by
  intro h2
  exact hv (h2 ▸ mem_of_dropWhile_cons (ltv v) x t l h)

/-! ### Behaviour of the three operations in terms of chain membership -/

theorem set_add_of_mem (h : Int) (rest : List Int) (v : Int)
    (hp : rest.Pairwise (· < ·)) (hv : v ∈ rest) :
    set_add (h :: rest) v = some (false, h :: rest) := by
  obtain ⟨t, hdrop, -⟩ := dropWhile_cons_of_mem v rest hp hv
  have hseek := seek_eq_some v rest ⟨v, hv, le_refl v⟩
  rw [hdrop] at hseek
  have hrest : rest.takeWhile (ltv v) ++ v :: t = rest := by
    conv_rhs => rw [← List.takeWhile_append_dropWhile (ltv v) rest]
    rw [hdrop]
  simp [set_add, hseek, hrest]

theorem set_add_of_not_mem (h : Int) (rest : List Int) (v : Int)
    (hv : v ∉ rest) (hstop : ∃ x ∈ rest, v ≤ x) :
    set_add (h :: rest) v =
      some (true, h :: (rest.takeWhile (ltv v) ++ v :: rest.dropWhile (ltv v))) := by
  obtain ⟨x, hx, hvx⟩ := hstop
  obtain ⟨d, ds, hdrop⟩ :=
    List.exists_cons_of_ne_nil (dropWhile_ne_nil_of_stopper v x rest hx hvx)
  have hseek := seek_eq_some v rest ⟨x, hx, hvx⟩
  rw [hdrop] at hseek
  have hne : (d == v) = false := by
    simp [head_dropWhile_ne_of_not_mem v d ds rest hv hdrop]
  rw [hdrop]
  simp [set_add, hseek, hne]

theorem set_remove_of_mem (h : Int) (rest : List Int) (v : Int)
    (hp : rest.Pairwise (· < ·)) (hv : v ∈ rest) :
    set_remove (h :: rest) v = some (true, h :: rest.erase v) := by
  obtain ⟨t, hdrop, htake⟩ := dropWhile_cons_of_mem v rest hp hv
  have hseek := seek_eq_some v rest ⟨v, hv, le_refl v⟩
  rw [hdrop] at hseek
  simp [set_remove, hseek, htake]

theorem set_remove_of_not_mem (h : Int) (rest : List Int) (v : Int)
    (hv : v ∉ rest) (hstop : ∃ x ∈ rest, v ≤ x) :
    set_remove (h :: rest) v = some (false, h :: rest) := by
  obtain ⟨x, hx, hvx⟩ := hstop
  obtain ⟨d, ds, hdrop⟩ :=
    List.exists_cons_of_ne_nil (dropWhile_ne_nil_of_stopper v x rest hx hvx)
  have hseek := seek_eq_some v rest ⟨x, hx, hvx⟩
  rw [hdrop] at hseek
  have hne : (d == v) = false := by
    simp [head_dropWhile_ne_of_not_mem v d ds rest hv hdrop]
  have hrest : rest.takeWhile (ltv v) ++ d :: ds = rest := by
    conv_rhs => rw [← List.takeWhile_append_dropWhile (ltv v) rest]
    rw [hdrop]
  simp [set_remove, hseek, hne, hrest]

theorem set_contains_of_mem (h : Int) (rest : List Int) (v : Int)
    (hp : rest.Pairwise (· < ·)) (hv : v ∈ rest) :
    set_contains (h :: rest) v = some true := by
  obtain ⟨t, hdrop, -⟩ := dropWhile_cons_of_mem v rest hp hv
  have hseek := seek_eq_some v rest ⟨v, hv, le_refl v⟩
  rw [hdrop] at hseek
  simp [set_contains, hseek]

theorem set_contains_of_not_mem (h : Int) (rest : List Int) (v : Int)
    (hv : v ∉ rest) (hstop : ∃ x ∈ rest, v ≤ x) :
    set_contains (h :: rest) v = some false := by
  obtain ⟨x, hx, hvx⟩ := hstop
  obtain ⟨d, ds, hdrop⟩ :=
    List.exists_cons_of_ne_nil (dropWhile_ne_nil_of_stopper v x rest hx hvx)
  have hseek := seek_eq_some v rest ⟨x, hx, hvx⟩
  rw [hdrop] at hseek
  have hne : (d == v) = false := by
    simp [head_dropWhile_ne_of_not_mem v d ds rest hv hdrop]
  simp [set_contains, hseek, hne]

/-! ### The splice of a fresh value keeps the chain strictly sorted -/

theorem mem_of_mem_insert (v x : Int) (l : List Int)
    (hx : x ∈ l.takeWhile (ltv v) ++ v :: l.dropWhile (ltv v)) : x ∈ l ∨ x = v := by
  rcases List.mem_append.mp hx with h1 | h1
  · left
    rw [← List.takeWhile_append_dropWhile (ltv v) l]
    exact List.mem_append_left _ h1
  · rcases List.mem_cons.mp h1 with rfl | h2
    · right; rfl
    · left
      rw [← List.takeWhile_append_dropWhile (ltv v) l]
      exact List.mem_append_right _ h2

theorem pairwise_insert (v : Int) :
    ∀ l : List Int, l.Pairwise (· < ·) → v ∉ l →
      (l.takeWhile (ltv v) ++ v :: l.dropWhile (ltv v)).Pairwise (· < ·) := by
  intro l
  induction l with
  | nil => intro _ _; simp
  | cons a as ih =>
    intro hp hv
    rcases List.pairwise_cons.mp hp with ⟨ha, hpas⟩
    have hvne : v ≠ a := fun h => hv (h ▸ List.mem_cons_self a as)
    by_cases hav : a < v
    · rw [List.takeWhile_cons, List.dropWhile_cons]
      simp only [ltv, hav, decide_true_eq_true, if_true, List.cons_append]
      refine List.pairwise_cons.mpr ⟨?_, ih hpas (fun h => hv (List.mem_cons_of_mem a h))⟩
      intro x hx
      rcases mem_of_mem_insert v x as hx with h1 | rfl
      · exact ha x h1
      · exact hav
    · rw [List.takeWhile_cons, List.dropWhile_cons]
      simp only [ltv, hav, decide_false_eq_false, if_false, List.nil_append]
      have hva : v < a := lt_of_le_of_ne (not_lt.mp hav) hvne
      refine List.pairwise_cons.mpr ⟨?_, hp⟩
      intro x hx
      rcases List.mem_cons.mp hx with rfl | h1
      · exact hva
      · exact lt_trans hva (ha x h1)

/-! ### The structural invariant -/

theorem mem_of_getLast?_eq (l : List Int) (x : Int) (h : l.getLast? = some x) : x ∈ l := by
  obtain ⟨hne, rfl⟩ := List.mem_getLast?_eq_getLast h
  exact List.getLast_mem hne

theorem SetInv_dest (s : List Int) (h : SetInv s) :
    ∃ rest, s = VAL_MIN :: rest ∧ rest.Pairwise (· < ·) ∧
      (∀ x ∈ rest, VAL_MIN < x) ∧ VAL_MAX ∈ rest ∧ rest.getLast? = some VAL_MAX := by
  obtain ⟨h1, h2, h3⟩ := h
  cases s with
  | nil => simp at h1
  | cons a rest =>
    simp only [List.head?_cons, Option.some.injEq] at h1
    subst h1
    rcases List.pairwise_cons.mp h3 with ⟨ha, hp⟩
    cases rest with
    | nil =>
      rw [List.getLast?_singleton] at h2
      exact absurd (Option.some.inj h2) (by decide)
    | cons b rest2 =>
      rw [List.getLast?_cons_cons] at h2
      exact ⟨b :: rest2, rfl, hp, ha, mem_of_getLast?_eq _ _ h2, h2⟩

theorem SetInv_mk (rest : List Int) (hp : rest.Pairwise (· < ·))
    (hmin : ∀ x ∈ rest, VAL_MIN < x) (hlast : rest.getLast? = some VAL_MAX) :
    SetInv (VAL_MIN :: rest) := by
  refine ⟨rfl, ?_, List.pairwise_cons.mpr ⟨hmin, hp⟩⟩
  cases rest with
  | nil => simp at hlast
  | cons b t => rw [List.getLast?_cons_cons]; exact hlast

theorem max_mem_dropWhile (v : Int) (rest : List Int) (hv : v ≤ VAL_MAX)
    (hmem : VAL_MAX ∈ rest) : VAL_MAX ∈ rest.dropWhile (ltv v) := by
  have hmem2 : VAL_MAX ∈ rest.takeWhile (ltv v) ++ rest.dropWhile (ltv v) := by
    rw [List.takeWhile_append_dropWhile]
    exact hmem
  rcases List.mem_append.mp hmem2 with h1 | h1
  · have h2 := List.mem_takeWhile_imp h1
    simp only [ltv, decide_eq_true_eq] at h2
    exact absurd (lt_of_le_of_lt hv h2) (lt_irrefl _)
  · exact h1

theorem getLast?_insert (v : Int) (rest : List Int) (hv : v ≤ VAL_MAX)
    (hmem : VAL_MAX ∈ rest) (hlast : rest.getLast? = some VAL_MAX) :
    (rest.takeWhile (ltv v) ++ v :: rest.dropWhile (ltv v)).getLast? = some VAL_MAX := by
  have hdne : rest.dropWhile (ltv v) ≠ [] := by
    intro h
    have hmax := max_mem_dropWhile v rest hv hmem
    rw [h] at hmax
    exact List.not_mem_nil _ hmax
  obtain ⟨d, ds, hdrop⟩ := List.exists_cons_of_ne_nil hdne
  have hdl : (rest.dropWhile (ltv v)).getLast? = some VAL_MAX := by
    rw [← List.getLast?_append_of_ne_nil (rest.takeWhile (ltv v)) hdne,
      List.takeWhile_append_dropWhile]
    exact hlast
  rw [List.getLast?_append_cons, hdrop, List.getLast?_cons_cons, ← hdrop]
  exact hdl

/-- `set_add` preserves the structural invariant for values strictly above the
minimum sentinel (and in `int` range). -/
theorem set_add_inv (s : List Int) (v : Int) (hinv : SetInv s)
    (hv1 : VAL_MIN < v) (hv2 : v ≤ VAL_MAX) :
    ∃ b s2, set_add s v = some (b, s2) ∧ SetInv s2 := by
  obtain ⟨rest, rfl, hp, hmin, hmem, hlast⟩ := SetInv_dest s hinv
  by_cases hv : v ∈ rest
  · exact ⟨false, VAL_MIN :: rest, set_add_of_mem _ rest v hp hv,
      SetInv_mk rest hp hmin hlast⟩
  · refine ⟨true, _, set_add_of_not_mem _ rest v hv ⟨VAL_MAX, hmem, hv2⟩, ?_⟩
    refine SetInv_mk _ (pairwise_insert v rest hp hv) ?_
      (getLast?_insert v rest hv2 hmem hlast)
    intro x hx
    rcases mem_of_mem_insert v x rest hx with h1 | rfl
    · exact hmin x h1
    · exact hv1

/-- `set_remove` preserves the structural invariant for values strictly below
the maximum sentinel. -/
theorem set_remove_inv (s : List Int) (v : Int) (hinv : SetInv s)
    (hv : v < VAL_MAX) :
    ∃ b s2, set_remove s v = some (b, s2) ∧ SetInv s2 := by
  obtain ⟨rest, rfl, hp, hmin, hmem, hlast⟩ := SetInv_dest s hinv
  by_cases hvm : v ∈ rest
  · refine ⟨true, VAL_MIN :: rest.erase v, set_remove_of_mem _ rest v hp hvm, ?_⟩
    obtain ⟨t, hdrop, htake⟩ := dropWhile_cons_of_mem v rest hp hvm
    have hrest : rest.takeWhile (ltv v) ++ v :: t = rest := by
      conv_rhs => rw [← List.takeWhile_append_dropWhile (ltv v) rest]
      rw [hdrop]
    have htne : t ≠ [] := by
      intro h
      subst h
      rw [← hrest, List.getLast?_append_cons, List.getLast?_singleton] at hlast
      exact absurd (Option.some.inj hlast) (ne_of_lt hv)
    obtain ⟨c, cs, hct⟩ := List.exists_cons_of_ne_nil htne
    have htl : t.getLast? = some VAL_MAX := by
      rw [← hrest, List.getLast?_append_cons, hct, List.getLast?_cons_cons,
        ← hct] at hlast
      exact hlast
    refine SetInv_mk _ (hp.sublist (List.erase_sublist v rest)) ?_ ?_
    · intro x hx
      exact hmin x (List.mem_of_mem_erase hx)
    · rw [← htake, List.getLast?_append_of_ne_nil _ htne]
      exact htl
  · exact ⟨false, VAL_MIN :: rest, set_remove_of_not_mem _ rest v hvm
      ⟨VAL_MAX, hmem, le_of_lt hv⟩, SetInv_mk rest hp hmin hlast⟩

/-! ### Length accounting, without assuming sortedness -/

theorem set_add_step (h : Int) (rest : List Int) (v : Int)
    (hmem : VAL_MAX ∈ rest) (hv : v ≤ VAL_MAX) :
    ∃ b rest2, set_add (h :: rest) v = some (b, h :: rest2) ∧ VAL_MAX ∈ rest2 ∧
      rest2.length = (if b then rest.length + 1 else rest.length) := by
  obtain ⟨d, ds, hdrop⟩ :=
    List.exists_cons_of_ne_nil (dropWhile_ne_nil_of_stopper v VAL_MAX rest hmem hv)
  have hseek := seek_eq_some v rest ⟨VAL_MAX, hmem, hv⟩
  rw [hdrop] at hseek
  have hrest : rest.takeWhile (ltv v) ++ d :: ds = rest := by
    conv_rhs => rw [← List.takeWhile_append_dropWhile (ltv v) rest]
    rw [hdrop]
  by_cases hdv : d = v
  · refine ⟨false, rest, ?_, hmem, by simp⟩
    have hb : (d == v) = true := by simp [hdv]
    simp [set_add, hseek, hb, hrest]
  · refine ⟨true, rest.takeWhile (ltv v) ++ v :: d :: ds, ?_, ?_, ?_⟩
    · have hb : (d == v) = false := by simp [hdv]
      simp [set_add, hseek, hb]
    · have h2 : VAL_MAX ∈ rest.takeWhile (ltv v) ++ d :: ds := by
        rw [hrest]; exact hmem
      rcases List.mem_append.mp h2 with h3 | h3
      · exact List.mem_append_left _ h3
      · exact List.mem_append_right _ (List.mem_cons_of_mem _ h3)
    · show (rest.takeWhile (ltv v) ++ v :: d :: ds).length = rest.length + 1
      have hlen := congrArg List.length hrest
      simp only [List.length_append, List.length_cons] at hlen ⊢
      omega

theorem set_remove_step (h : Int) (rest : List Int) (v : Int)
    (hmem : VAL_MAX ∈ rest) (hv : v < VAL_MAX) :
    ∃ b rest2, set_remove (h :: rest) v = some (b, h :: rest2) ∧ VAL_MAX ∈ rest2 ∧
      rest.length = (if b then rest2.length + 1 else rest2.length) := by
  obtain ⟨d, ds, hdrop⟩ :=
    List.exists_cons_of_ne_nil
      (dropWhile_ne_nil_of_stopper v VAL_MAX rest hmem (le_of_lt hv))
  have hseek := seek_eq_some v rest ⟨VAL_MAX, hmem, le_of_lt hv⟩
  rw [hdrop] at hseek
  have hrest : rest.takeWhile (ltv v) ++ d :: ds = rest := by
    conv_rhs => rw [← List.takeWhile_append_dropWhile (ltv v) rest]
    rw [hdrop]
  by_cases hdv : d = v
  · refine ⟨true, rest.takeWhile (ltv v) ++ ds, ?_, ?_, ?_⟩
    · have hb : (d == v) = true := by simp [hdv]
      simp [set_remove, hseek, hb]
    · have h2 : VAL_MAX ∈ rest.takeWhile (ltv v) ++ d :: ds := by
        rw [hrest]; exact hmem
      rcases List.mem_append.mp h2 with h3 | h3
      · exact List.mem_append_left _ h3
      · rcases List.mem_cons.mp h3 with h4 | h4
        · exact absurd (h4.trans hdv).symm (ne_of_lt hv)
        · exact List.mem_append_right _ h4
    · show rest.length = (rest.takeWhile (ltv v) ++ ds).length + 1
      have hlen := congrArg List.length hrest
      simp only [List.length_append, List.length_cons] at hlen ⊢
      omega
  · refine ⟨false, rest, ?_, hmem, by simp⟩
    have hb : (d == v) = false := by simp [hdv]
    simp [set_remove, hseek, hb, hrest]

/-- Size accounting over a whole call sequence: as long as the max sentinel
value stays in the tail of the chain, every call returns, the max sentinel
value remains, and the tail length changes by exactly the success counts. -/
theorem runOps_len :
    ∀ (ops : List SetOp) (h : Int) (rest : List Int) (a r : Nat),
      VAL_MAX ∈ rest → (∀ op ∈ ops, opvalOk op) →
      ∃ rest2 a2 r2, runOps ops (h :: rest) a r = some (h :: rest2, a2, r2) ∧
        VAL_MAX ∈ rest2 ∧ rest2.length + a + r2 = rest.length + a2 + r := by
  intro ops
  induction ops with
  | nil =>
    intro h rest a r hmem _
    exact ⟨rest, a, r, rfl, hmem, rfl⟩
  | cons op t ih =>
    intro h rest a r hmem hok
    have hokt : ∀ x ∈ t, opvalOk x := fun x hx => hok x (List.mem_cons_of_mem _ hx)
    cases op with
    | add v =>
      have hv : v ≤ VAL_MAX := hok _ (List.mem_cons_self _ _)
      obtain ⟨b, rest1, heq, hmem1, hlen1⟩ := set_add_step h rest v hmem hv
      cases b
      · obtain ⟨rest2, a2, r2, heq2, hmem2, hlen2⟩ := ih h rest1 a r hmem1 hokt
        refine ⟨rest2, a2, r2, ?_, hmem2, ?_⟩
        · simp only [runOps, heq]
          simpa using heq2
        · simp at hlen1
          omega
      · obtain ⟨rest2, a2, r2, heq2, hmem2, hlen2⟩ := ih h rest1 (a + 1) r hmem1 hokt
        refine ⟨rest2, a2, r2, ?_, hmem2, ?_⟩
        · simp only [runOps, heq]
          simpa using heq2
        · simp at hlen1
          omega
    | rem v =>
      have hv : v < VAL_MAX := hok _ (List.mem_cons_self _ _)
      obtain ⟨b, rest1, heq, hmem1, hlen1⟩ := set_remove_step h rest v hmem hv
      cases b
      · obtain ⟨rest2, a2, r2, heq2, hmem2, hlen2⟩ := ih h rest1 a r hmem1 hokt
        refine ⟨rest2, a2, r2, ?_, hmem2, ?_⟩
        · simp only [runOps, heq]
          simpa using heq2
        · simp at hlen1
          omega
      · obtain ⟨rest2, a2, r2, heq2, hmem2, hlen2⟩ := ih h rest1 a (r + 1) hmem1 hokt
        refine ⟨rest2, a2, r2, ?_, hmem2, ?_⟩
        · simp only [runOps, heq]
          simpa using heq2
        · simp at hlen1
          omega

/-- The structural invariant survives any sequence of calls whose values avoid
the two sentinel corner cases. -/
theorem runOps_inv :
    ∀ (ops : List SetOp) (s : List Int) (a r : Nat), SetInv s →
      (∀ op ∈ ops, okOp op) →
      ∃ s2 a2 r2, runOps ops s a r = some (s2, a2, r2) ∧ SetInv s2 := by
  intro ops
  induction ops with
  | nil =>
    intro s a r hinv _
    exact ⟨s, a, r, rfl, hinv⟩
  | cons op t ih =>
    intro s a r hinv hok
    have hokt : ∀ x ∈ t, okOp x := fun x hx => hok x (List.mem_cons_of_mem _ hx)
    cases op with
    | add v =>
      obtain ⟨hv1, hv2⟩ := hok _ (List.mem_cons_self _ _)
      obtain ⟨b, s1, heq, hinv1⟩ := set_add_inv s v hinv hv1 hv2
      obtain ⟨s2, a2, r2, heq2, hinv2⟩ := ih s1 (if b then a + 1 else a) r hinv1 hokt
      refine ⟨s2, a2, r2, ?_, hinv2⟩
      simp only [runOps, heq]
      exact heq2
    | rem v =>
      have hv : v < VAL_MAX := hok _ (List.mem_cons_self _ _)
      obtain ⟨b, s1, heq, hinv1⟩ := set_remove_inv s v hinv hv
      obtain ⟨s2, a2, r2, heq2, hinv2⟩ := ih s1 a (if b then r + 1 else r) hinv1 hokt
      refine ⟨s2, a2, r2, ?_, hinv2⟩
      simp only [runOps, heq]
      exact heq2

/-! ### Claim C1 -/

/-- C1, counterexample to the unrestricted claim: the single-operation sequence
`remove(VAL_MAX)` on a fresh set succeeds (one successful remove, zero
successful adds), because it matches and unlinks the max sentinel node; the
claimed equality `size() = adds - removes` then fails — `set_size` on the
resulting one-node chain dereferences NULL (and no size equals 0 - 1). -/
theorem size_claim_fails_at_sentinel_remove :
    runOps [SetOp.rem VAL_MAX] set_new 0 0 = some ([VAL_MIN], 0, 1) ∧
    set_size [VAL_MIN] = none := by decide

/-- C1 (amended): for every sequence of add/remove operations with `int`-range
values in which no remove targets `VAL_MAX`, applied single-threaded to a
freshly created set, `size()` returns and equals the number of adds that
returned true minus the number of removes that returned true. -/
theorem size_eq_successful_adds_sub_removes (ops : List SetOp)
    (hok : ∀ op ∈ ops, opvalOk op) :
    ∃ s a r n, runOps ops set_new 0 0 = some (s, a, r) ∧ set_size s = some n ∧
      (n : Int) = (a : Int) - (r : Int) := by
  obtain ⟨rest2, a2, r2, heq, hmem2, hlen⟩ :=
    runOps_len ops VAL_MIN [VAL_MAX] 0 0 (by simp) hok
  obtain ⟨c, cs, rfl⟩ := List.exists_cons_of_ne_nil (List.ne_nil_of_mem hmem2)
  refine ⟨VAL_MIN :: c :: cs, a2, r2, cs.length, heq, by simp [set_size], ?_⟩
  have hlen2 : cs.length + 1 + r2 = 1 + a2 := by simpa using hlen
  omega

theorem size_eq_successful_adds_sub_removes_witness :
    (∀ op ∈ [SetOp.add 5, SetOp.add 7, SetOp.rem 5], opvalOk op) ∧
    (∃ s a r n,
      runOps [SetOp.add 5, SetOp.add 7, SetOp.rem 5] set_new 0 0 = some (s, a, r) ∧
      set_size s = some n ∧ (n : Int) = (a : Int) - (r : Int)) :=
  ⟨by decide, size_eq_successful_adds_sub_removes _ (by decide)⟩

/-! ### Claim C2 -/

/-- C2, counterexample to the unrestricted claim, at the two sentinel values.
A node carrying `VAL_MIN` is present in a fresh set, yet `add(VAL_MIN)`
returns true and mutates the chain (splicing a duplicate of the min
sentinel); and `VAL_MAX` was never added to a fresh set, yet `add(VAL_MAX)`
returns false instead of splicing, because the max sentinel node matches. -/
theorem add_claim_fails_at_sentinels :
    (VAL_MIN ∈ set_new ∧
      set_add set_new VAL_MIN = some (true, [VAL_MIN, VAL_MIN, VAL_MAX])) ∧
    (set_add set_new VAL_MAX = some (false, set_new)) := by decide

/-- C2 (amended): for every value `v` with `VAL_MIN < v ≤ VAL_MAX`, on a chain
satisfying the structural invariant: if a node carrying `v` exists, `add(v)`
returns false and leaves the chain unchanged; if not, `add(v)` returns true
and splices a single new node carrying `v` between its predecessor (the nodes
with smaller values) and successor (the first node with a larger value),
i.e. in sorted position. -/
theorem add_splices_or_fails (s : List Int) (v : Int) (hinv : SetInv s)
    (hv1 : VAL_MIN < v) (hv2 : v ≤ VAL_MAX) :
    (v ∈ s → set_add s v = some (false, s)) ∧
    (v ∉ s →
      set_add s v = some (true, s.takeWhile (ltv v) ++ v :: s.dropWhile (ltv v))) := by
  obtain ⟨rest, rfl, hp, hmin, hmem, hlast⟩ := SetInv_dest s hinv
  constructor
  · intro hv
    have hvr : v ∈ rest := by
      rcases List.mem_cons.mp hv with rfl | h2
      · exact absurd hv1 (lt_irrefl _)
      · exact h2
    exact set_add_of_mem _ rest v hp hvr
  · intro hv
    have hvr : v ∉ rest := fun h2 => hv (List.mem_cons_of_mem _ h2)
    rw [set_add_of_not_mem _ rest v hvr ⟨VAL_MAX, hmem, hv2⟩]
    have hd : ltv v VAL_MIN = true := decide_eq_true hv1
    rw [List.takeWhile_cons, List.dropWhile_cons, hd]
    simp

theorem add_splices_or_fails_witness :
    SetInv set_new ∧ (5 : Int) ∉ set_new ∧
    set_add set_new 5 = some (true, [VAL_MIN, 5, VAL_MAX]) := by
  refine ⟨by decide, by decide, ?_⟩
  have h := (add_splices_or_fails set_new 5 (by decide) (by decide) (by decide)).2
    (by decide)
  rw [h]
  decide

/-! ### Claim C3 -/

/-- C3, counterexample to the unrestricted claim: a node carrying `VAL_MIN` is
present in a fresh set (the min sentinel), yet `remove(VAL_MIN)` returns false
— the traversal starts after the head node, so the head can never be the
removal candidate.  (Symmetrically, `VAL_MAX` was never inserted as an
element, yet `remove(VAL_MAX)` returns true, see the C8 counterexample.) -/
theorem remove_claim_fails_at_min_sentinel :
    VAL_MIN ∈ set_new ∧ set_remove set_new VAL_MIN = some (false, set_new) := by
  decide

/-- C3 (amended): for every value `v` with `VAL_MIN < v ≤ VAL_MAX`, on a chain
satisfying the structural invariant: if a node carrying `v` exists,
`remove(v)` returns true and unlinks exactly that node (the predecessor's
successor becomes the removed node's successor, i.e. the chain becomes
`s.erase v`); otherwise it returns false and leaves the chain unchanged. -/
theorem remove_unlinks_or_fails (s : List Int) (v : Int) (hinv : SetInv s)
    (hv1 : VAL_MIN < v) (hv2 : v ≤ VAL_MAX) :
    (v ∈ s → set_remove s v = some (true, s.erase v)) ∧
    (v ∉ s → set_remove s v = some (false, s)) := by
  obtain ⟨rest, rfl, hp, hmin, hmem, hlast⟩ := SetInv_dest s hinv
  constructor
  · intro hv
    have hvr : v ∈ rest := by
      rcases List.mem_cons.mp hv with rfl | h2
      · exact absurd hv1 (lt_irrefl _)
      · exact h2
    rw [set_remove_of_mem _ rest v hp hvr, List.erase_cons]
    have hne : (VAL_MIN == v) = false := by
      simp only [beq_eq_false_iff_ne, ne_eq]
      exact ne_of_lt hv1
    rw [hne]
    simp
  · intro hv
    have hvr : v ∉ rest := fun h2 => hv (List.mem_cons_of_mem _ h2)
    exact set_remove_of_not_mem _ rest v hvr ⟨VAL_MAX, hmem, hv2⟩

theorem remove_unlinks_or_fails_witness :
    SetInv [VAL_MIN, 5, VAL_MAX] ∧ (5 : Int) ∈ [VAL_MIN, 5, VAL_MAX] ∧
    set_remove [VAL_MIN, 5, VAL_MAX] 5 = some (true, [VAL_MIN, VAL_MAX]) := by
  refine ⟨by decide, by decide, ?_⟩
  have h := (remove_unlinks_or_fails [VAL_MIN, 5, VAL_MAX] 5 (by decide) (by decide)
    (by decide)).1 (by decide)
  rw [h]
  decide

/-! ### Claim C8 -/

/-- C8, counterexample to the unrestricted claim at `v = VAL_MAX`: `add` then
returns false (no mutation), the immediately following `remove(VAL_MAX)`
returns true — unlinking the max sentinel — and the subsequent
`contains(VAL_MAX)` does not return false: it dereferences NULL while
traversing the now unbounded chain. -/
theorem roundtrip_claim_fails_at_max_sentinel :
    set_add set_new VAL_MAX = some (false, set_new) ∧
    set_remove set_new VAL_MAX = some (true, [VAL_MIN]) ∧
    set_contains [VAL_MIN] VAL_MAX = none := by decide

/-- C8 (amended): for every value `v < VAL_MAX`, on a chain satisfying the
structural invariant, with no intervening mutation: after `add(v)`,
`contains(v)` returns true; `remove(v)` immediately after returns true; and a
subsequent `contains(v)` returns false. -/
theorem add_contains_remove_roundtrip (s : List Int) (v : Int) (hinv : SetInv s)
    (hv : v < VAL_MAX) :
    ∃ b s1 s2, set_add s v = some (b, s1) ∧ set_contains s1 v = some true ∧
      set_remove s1 v = some (true, s2) ∧ set_contains s2 v = some false := by
  obtain ⟨rest, rfl, hp, hmin, hmem, hlast⟩ := SetInv_dest s hinv
  by_cases hvr : v ∈ rest
  · refine ⟨false, VAL_MIN :: rest, VAL_MIN :: rest.erase v,
      set_add_of_mem _ rest v hp hvr,
      set_contains_of_mem _ rest v hp hvr,
      set_remove_of_mem _ rest v hp hvr, ?_⟩
    have hnd : rest.Nodup := hp.imp (fun hlt => ne_of_lt hlt)
    have hv2 : v ∉ rest.erase v := fun h2 => (hnd.mem_erase_iff.mp h2).1 rfl
    have hmax : VAL_MAX ∈ rest.erase v :=
      hnd.mem_erase_iff.mpr ⟨fun h2 => absurd (h2 ▸ hv) (lt_irrefl _), hmem⟩
    exact set_contains_of_not_mem _ _ v hv2 ⟨VAL_MAX, hmax, le_of_lt hv⟩
  · have hp1 : (rest.takeWhile (ltv v) ++ v :: rest.dropWhile (ltv v)).Pairwise
        (· < ·) := pairwise_insert v rest hp hvr
    have hv1 : v ∈ rest.takeWhile (ltv v) ++ v :: rest.dropWhile (ltv v) :=
      List.mem_append_right _ (List.mem_cons_self _ _)
    refine ⟨true, _, _,
      set_add_of_not_mem _ rest v hvr ⟨VAL_MAX, hmem, le_of_lt hv⟩,
      set_contains_of_mem _ _ v hp1 hv1,
      set_remove_of_mem _ _ v hp1 hv1, ?_⟩
    have hnd1 : (rest.takeWhile (ltv v) ++ v :: rest.dropWhile (ltv v)).Nodup :=
      hp1.imp (fun hlt => ne_of_lt hlt)
    have hv2 : v ∉ (rest.takeWhile (ltv v) ++ v :: rest.dropWhile (ltv v)).erase v :=
      fun h2 => (hnd1.mem_erase_iff.mp h2).1 rfl
    have hm1 : VAL_MAX ∈ rest.takeWhile (ltv v) ++ v :: rest.dropWhile (ltv v) := by
      have h2 : VAL_MAX ∈ rest.takeWhile (ltv v) ++ rest.dropWhile (ltv v) := by
        rw [List.takeWhile_append_dropWhile]
        exact hmem
      rcases List.mem_append.mp h2 with h3 | h3
      · exact List.mem_append_left _ h3
      · exact List.mem_append_right _ (List.mem_cons_of_mem _ h3)
    have hmax : VAL_MAX ∈ (rest.takeWhile (ltv v) ++ v :: rest.dropWhile (ltv v)).erase v :=
      hnd1.mem_erase_iff.mpr ⟨fun h2 => absurd (h2 ▸ hv) (lt_irrefl _), hm1⟩
    exact set_contains_of_not_mem _ _ v hv2 ⟨VAL_MAX, hmax, le_of_lt hv⟩

theorem add_contains_remove_roundtrip_witness :
    set_add set_new 5 = some (true, [VAL_MIN, 5, VAL_MAX]) ∧
    set_contains [VAL_MIN, 5, VAL_MAX] 5 = some true ∧
    set_remove [VAL_MIN, 5, VAL_MAX] 5 = some (true, [VAL_MIN, VAL_MAX]) ∧
    set_contains [VAL_MIN, VAL_MAX] 5 = some false := by
  obtain ⟨b, s1, s2, h1, h2, h3, h4⟩ :=
    add_contains_remove_roundtrip set_new 5 (by decide) (by decide)
  have e1 : set_add set_new 5 = some (true, [VAL_MIN, 5, VAL_MAX]) := by decide
  rw [e1] at h1
  injection h1 with h1
  injection h1 with hb hs
  subst hb
  subst hs
  have e3 : set_remove [VAL_MIN, 5, VAL_MAX] 5 = some (true, [VAL_MIN, VAL_MAX]) := by
    decide
  rw [e3] at h3
  injection h3 with h3
  injection h3 with hb2 hs2
  subst hs2
  exact ⟨e1, h2, e3, h4⟩

/-! ### Claim C9 -/

/-- C9, counterexample to the unrestricted claim: the sequence consisting of
the single operation `add(VAL_MIN)` succeeds on a fresh set and produces a
chain in which the values are not strictly increasing (the min sentinel value
appears twice). -/
theorem invariant_claim_fails_at_min_add :
    runOps [SetOp.add VAL_MIN] set_new 0 0 =
      some ([VAL_MIN, VAL_MIN, VAL_MAX], 1, 0) ∧
    ¬ SetInv [VAL_MIN, VAL_MIN, VAL_MAX] := by decide

/-- C9 (amended): every single-threaded sequence of add/remove operations on a
freshly created set preserves the structural invariant — strictly increasing
values along the chain, min sentinel first, max sentinel last, hence no
duplicates — provided no add targets `VAL_MIN` and no remove targets
`VAL_MAX` (values in `int` range). -/
theorem sequence_preserves_invariant (ops : List SetOp)
    (hok : ∀ op ∈ ops, okOp op) :
    ∃ s a r, runOps ops set_new 0 0 = some (s, a, r) ∧ SetInv s :=
  runOps_inv ops set_new 0 0 (by decide) hok

theorem sequence_preserves_invariant_witness :
    (∀ op ∈ [SetOp.add 5, SetOp.add 3, SetOp.rem 5], okOp op) ∧
    (∃ s a r, runOps [SetOp.add 5, SetOp.add 3, SetOp.rem 5] set_new 0 0 =
      some (s, a, r) ∧ SetInv s) :=
  ⟨by decide, sequence_preserves_invariant _ (by decide)⟩

/-! ### Claim C10 -/

/-- C10: on every chain satisfying the sentinel invariant — in particular on a
freshly created empty set — `contains(VAL_MAX)` returns true even though that
value was never added: the traversal stops at the max sentinel and the
equality test matches it, so the sentinel is indistinguishable from a member
at the `contains` interface. -/
theorem contains_max_sentinel (s : List Int) (hinv : SetInv s) :
    set_contains s VAL_MAX = some true := by
  obtain ⟨rest, rfl, hp, hmin, hmem, hlast⟩ := SetInv_dest s hinv
  exact set_contains_of_mem _ rest VAL_MAX hp hmem

theorem contains_max_sentinel_witness :
    SetInv set_new ∧ set_contains set_new VAL_MAX = some true :=
  ⟨by decide, contains_max_sentinel set_new (by decide)⟩

/-! ### Claim C4 -/

/-- Inductive invariant of the barrier system: the threads are conserved, and
either no broadcast has happened yet — `crossing` counts exactly the waiting
threads, nobody is woken or done — or the broadcast has happened and every
thread has passed the increment, nobody is left waiting, and `crossing` has
been reset to zero. -/
def BarrierInv (N : Nat) (s : BarrierSt) : Prop :=
  s.nStart + s.nWaiting + s.nWoken + s.nDone = N ∧
  ((s.nWoken = 0 ∧ s.nDone = 0 ∧ s.crossing = s.nWaiting ∧ s.nWaiting < N) ∨
   (s.nStart = 0 ∧ s.nWaiting = 0 ∧ s.crossing = 0))

theorem barrier_inv_init (N : Nat) : BarrierInv N (barrier_init N) := by
  rcases Nat.eq_zero_or_pos N with rfl | hN
  · exact ⟨rfl, Or.inr ⟨rfl, rfl, rfl⟩⟩
  · exact ⟨by simp [barrier_init], Or.inl ⟨rfl, rfl, rfl, hN⟩⟩

theorem barrier_inv_step (N : Nat) (s s2 : BarrierSt) (hs : BarrierInv N s)
    (hstep : BarrierStep N s s2) : BarrierInv N s2 := by
  cases hstep with
  | arrive_wait ns nw nk nd c h =>
    simp [BarrierInv] at hs ⊢
    omega
  | arrive_last ns nw nk nd c h =>
    simp [BarrierInv] at hs ⊢
    omega
  | woken_exit ns nw nk nd c =>
    simp [BarrierInv] at hs ⊢
    omega

theorem barrier_inv_reach (N : Nat) (s : BarrierSt) (h : BarrierReach N s) :
    BarrierInv N s := by
  induction h with
  | refl => exact barrier_inv_init N
  | tail _ hstep ih => exact barrier_inv_step N _ _ ih hstep

/-- The step taken while exactly one participant is still outside must be the
final arrival: it empties the wait set, resets `crossing`, wakes exactly the
waiters and completes the arriving thread. -/
theorem barrier_last_arrival (N : Nat) (s s2 : BarrierSt) (hs : BarrierInv N s)
    (hstep : BarrierStep N s s2) (hone : s.nStart = 1) :
    s2.nWaiting = 0 ∧ s2.crossing = 0 ∧ s2.nWoken = s.nWaiting ∧
      s2.nDone = s.nDone + 1 := by
  cases hstep with
  | arrive_wait ns nw nk nd c h =>
    simp [BarrierInv] at hs hone
    exact absurd h (by omega)
  | arrive_last ns nw nk nd c h =>
    simp [BarrierInv] at hs hone ⊢
    omega
  | woken_exit ns nw nk nd c =>
    simp [BarrierInv] at hs hone ⊢
    omega

/-- C4: in every reachable state of a barrier initialised for `N` participants,
(1) while some participant has not yet called `cross()` (fewer than `N` calls
have occurred), no participant has been released — none has returned and none
has even been woken; (2) the `N`-th arrival (the step taken when exactly one
participant is still outside) leaves no thread waiting: it wakes every waiter
and resets the arrival count to zero; (3) once all `N` participants are done
the barrier state is exactly crossing = 0 with no thread inside, so a
subsequent rendezvous of `N` fresh participants starts from a state identical
to a freshly initialised barrier and blocks and releases correctly again. -/
theorem barrier_releases_only_after_nth_cross (N : Nat) (s : BarrierSt)
    (h : BarrierReach N s) :
    (1 ≤ s.nStart → s.nDone = 0 ∧ s.nWoken = 0) ∧
    (∀ s2, BarrierStep N s s2 → s.nStart = 1 →
      s2.nWaiting = 0 ∧ s2.crossing = 0 ∧ s2.nWoken = s.nWaiting ∧
        s2.nDone = s.nDone + 1) ∧
    (s.nDone = N → s = ⟨0, 0, 0, N, 0⟩) := by
  have hinv := barrier_inv_reach N s h
  obtain ⟨ns, nw, nk, nd, c⟩ := s
  have hinv2 := hinv
  simp only [BarrierInv] at hinv2
  refine ⟨?_, ?_, ?_⟩
  · intro h1
    have h2 : 1 ≤ ns := h1
    exact ⟨(show nd = 0 by omega), (show nk = 0 by omega)⟩
  · intro s2 hstep hone
    exact barrier_last_arrival N _ s2 hinv hstep hone
  · intro hdone
    have hd : nd = N := hdone
    have hz : ns = 0 ∧ nw = 0 ∧ nk = 0 ∧ c = 0 := by omega
    obtain ⟨e1, e2, e3, e4⟩ := hz
    subst e1
    subst e2
    subst e3
    subst e4
    subst hd
    rfl

theorem barrier_releases_only_after_nth_cross_witness :
    BarrierReach 2 ⟨1, 1, 0, 0, 1⟩ ∧
    (1 : Nat) ≤ (⟨1, 1, 0, 0, 1⟩ : BarrierSt).nStart ∧
    (⟨1, 1, 0, 0, 1⟩ : BarrierSt).nDone = 0 ∧
    (⟨1, 1, 0, 0, 1⟩ : BarrierSt).nWoken = 0 := by
  have hreach : BarrierReach 2 ⟨1, 1, 0, 0, 1⟩ :=
    Relation.ReflTransGen.single (BarrierStep.arrive_wait 1 0 0 0 0 (by decide))
  have h2 := (barrier_releases_only_after_nth_cross 2 _ hreach).1 (by decide)
  exact ⟨hreach, by decide, h2.1, h2.2⟩

/-! ### Claim C5 -/

/-- C5: for every bound `n > 0` and every generator state, the value returned
by `rand_range(n)` satisfies `0 <= v < n` (so the `assert` in `rand_range`
never fires). -/
theorem rand_range_in_bounds (n x : Nat) (hn : 0 < n) :
    0 ≤ (rand_range n x).1 ∧ (rand_range n x).1 < n := by
  refine ⟨Nat.zero_le _, ?_⟩
  show erand48_next x * n / 2 ^ 48 < n
  have hx : erand48_next x < 2 ^ 48 := Nat.mod_lt _ (by norm_num)
  exact Nat.div_lt_of_lt_mul ((Nat.mul_lt_mul_right hn).mpr hx)

theorem rand_range_in_bounds_witness :
    (0 : Nat) < 10 ∧ 0 ≤ (rand_range 10 12345).1 ∧ (rand_range 10 12345).1 < 10 :=
  ⟨by decide, rand_range_in_bounds 10 12345 (by decide)⟩

/-! ### Claim C6 -/

/-- C6: evaluation of the worker loop at a failing input (alternate mode,
update-rate 50, draws: roll 0 then value-roll 4 — a successful add of 5 —,
roll 99 then value-roll 8 — a lookup of 9 —, roll 0 — the removal of the
outstanding value).  After two iterations the outstanding value `last` is 5,
so the third iteration removes 5; yet the emitted removal record is `(1, 9)`,
carrying the stale `val` overwritten by the intervening lookup, not the
removal target 5.  The code prints `val` (line 312) instead of `last`. -/
theorem removal_record_carries_stale_value :
    test_loop 50 true 2 (worker_init set_new 0) [0, 4, 99, 8, 0] =
      some (⟨[VAL_MIN, 5, VAL_MAX], 5, 1, 1, 0, 1, 0, 9, [(0, 5), (2, 9)]⟩, [0]) ∧
    test_loop 50 true 3 (worker_init set_new 0) [0, 4, 99, 8, 0] =
      some (⟨[VAL_MIN, VAL_MAX], -1, 0, 1, 1, 1, 0, 9,
        [(0, 5), (2, 9), (1, 9)]⟩, []) := by
  decide

/-! ### Claim C7 -/

/-- C7, counterexample: a worker whose set already contains 5, with no
outstanding value, draws an add of 5; the add fails — the chain is unchanged,
no outstanding value is recorded (`last` stays -1) and the delta stays 0 —
yet `nb_add` is incremented to 1 (line 302 sits outside the `if`), where the
claim predicts it stays 0. -/
theorem add_counter_claim_counterexample :
    test_loop 100 true 1 (worker_init [VAL_MIN, 5, VAL_MAX] 0) [0, 4] =
      some (⟨[VAL_MIN, 5, VAL_MAX], -1, 0, 1, 0, 0, 0, 5, [(0, 5)]⟩, []) := by
  decide

/-- C7 (amended): in alternate mode, when a worker with no outstanding value
attempts an add, the add counter is incremented on every attempt, regardless
of the outcome; only recording the value as outstanding and the size delta
are conditioned on the add succeeding. -/
theorem add_attempt_increments_counter (update op r : Nat) (ds : List Nat)
    (st : WorkerSt) (hop : op < update) (hlast : st.last < 0)
    (ok : Bool) (chain2 : List Int)
    (hadd : set_add st.chain ((r : Int) + 1) = some (ok, chain2)) :
    ∃ st2, test_step update true st (op :: r :: ds) = some (st2, ds) ∧
      st2.nb_add = st.nb_add + 1 ∧
      (ok = true → st2.last = (r : Int) + 1 ∧ st2.diff = st.diff + 1) ∧
      (ok = false → st2.last = st.last ∧ st2.diff = st.diff) := by
  refine ⟨{ st with
              chain := chain2,
              diff := if ok then st.diff + 1 else st.diff,
              last := if ok then (r : Int) + 1 else st.last,
              nb_add := st.nb_add + 1,
              val := (r : Int) + 1,
              trace := st.trace ++ [(0, (r : Int) + 1)] }, ?_, rfl, ?_, ?_⟩
  · simp [test_step, hop, hlast, hadd]
  · intro h2
    subst h2
    simp
  · intro h2
    subst h2
    simp

theorem add_attempt_increments_counter_witness :
    (0 : Nat) < 100 ∧ (worker_init [VAL_MIN, 5, VAL_MAX] 0).last < 0 ∧
    set_add (worker_init [VAL_MIN, 5, VAL_MAX] 0).chain ((4 : Nat) + 1 : Int) =
      some (false, [VAL_MIN, 5, VAL_MAX]) ∧
    (∃ st2,
      test_step 100 true (worker_init [VAL_MIN, 5, VAL_MAX] 0) [0, 4, 7] =
        some (st2, [7]) ∧
      st2.nb_add = (worker_init [VAL_MIN, 5, VAL_MAX] 0).nb_add + 1 ∧
      (false = true → st2.last = ((4 : Nat) : Int) + 1 ∧
        st2.diff = (worker_init [VAL_MIN, 5, VAL_MAX] 0).diff + 1) ∧
      (false = false → st2.last = (worker_init [VAL_MIN, 5, VAL_MAX] 0).last ∧
        st2.diff = (worker_init [VAL_MIN, 5, VAL_MAX] 0).diff)) :=
  ⟨by decide, by decide, by decide,
    add_attempt_increments_counter 100 0 4 [7] (worker_init [VAL_MIN, 5, VAL_MAX] 0)
      (by decide) (by decide) false [VAL_MIN, 5, VAL_MAX] (by decide)⟩

end Tracegen
